import Mathlib

/-!
# Verification of the flux repository's puzzle scripts and archive builder

Shallow embedding of the Python sources:
- `src/benchmarks/aoc/day1.py` (landing-only zero-hit counter)
- `src/benchmarks/aoc/day1_part2.py` (crossing-count zero-hit counter)
- `src/benchmarks/aoc/day2_part1.py` (seed-expansion invalid-ID scanner)
- `src/benchmarks/aoc/day2_part2.py` (repeated-pattern invalid-ID scanner)
- `src/tools/vscode-flux/scripts/build-vsix.py` (extension archive builder)

Python integers are embedded as `Int` (or `Nat` where the source value is
provably non-negative); Python `%` and `//` with a positive right operand
agree with Lean's `Int.emod` / `Int.ediv`, which are the `%` / `/` notations
used below.  Input text is embedded as `List Char` per line.
-/

namespace Flux

/-! ## Python string / int primitives

`pyStrip` embeds Python's `str.strip()` (ASCII whitespace; the scripts'
inputs are ASCII).  `pyDigits` recognises the digit part of a Python
integer literal as accepted by `int()`: a non-empty ASCII digit string in
which single underscores may appear between digits.  `pyInt` embeds
`int(s)`: surrounding whitespace is stripped, an optional single sign is
allowed, and the rest must satisfy `pyDigits`; failure is `none`
(Python raises `ValueError`). -/

def pyStrip (s : List Char) : List Char :=
  ((s.dropWhile Char.isWhitespace).reverse.dropWhile Char.isWhitespace).reverse

def pyDigits : List Char → Bool
  | [] => false
  | [c] => c.isDigit
  | c :: '_' :: d :: rest => c.isDigit && pyDigits (d :: rest)
  | c :: rest => c.isDigit && pyDigits rest

def digitsVal (cs : List Char) : Nat :=
  cs.foldl (fun a c => if c = '_' then a else a * 10 + (c.toNat - 48)) 0

def pyInt (s : List Char) : Option Int :=
  match pyStrip s with
  | '+' :: rest => if pyDigits rest then some (Int.ofNat (digitsVal rest)) else none
  | '-' :: rest => if pyDigits rest then some (-(Int.ofNat (digitsVal rest))) else none
  | t => if pyDigits t then some (Int.ofNat (digitsVal t)) else none

/-! ## Rotation commands (day1.py and day1_part2.py)

Both scripts parse each input line identically: strip it, skip it when
blank, take the first character as the direction, convert the remainder
with `int(line[1:])` (this conversion happens *before* the direction is
inspected), then require the direction to be `L` or `R`. -/

inductive Dir : Type
  | L : Dir
  | R : Dir
deriving DecidableEq, Repr

structure Cmd : Type where
  dir : Dir
  dist : Int
deriving DecidableEq, Repr

/-- A fatal parsing failure: either `int(line[1:])` raised `ValueError`
(payload: the text handed to `int`) or the direction character was not
`L`/`R` (payload: the whole stripped line, as in the script's
`invalid rotation: {line}` message). -/
inductive PErr : Type
  | badMagnitude : List Char → PErr
  | badDirection : List Char → PErr
deriving DecidableEq, Repr

/-- One loop iteration's parsing, shared verbatim by day1.py and
day1_part2.py: `.ok none` = blank line skipped, `.ok (some c)` = parsed
command, `.error e` = fatal. -/
def parseLine (raw : List Char) : Except PErr (Option Cmd) :=
  match pyStrip raw with
  | [] => Except.ok none
  | c0 :: tl =>
    match pyInt tl with
    | none => Except.error (PErr.badMagnitude tl)
    | some dist =>
      if c0 = 'L' then Except.ok (some ⟨Dir.L, dist⟩)
      else if c0 = 'R' then Except.ok (some ⟨Dir.R, dist⟩)
      else Except.error (PErr.badDirection (c0 :: tl))

/-- The error `parseLine` produces for a given (stripped, non-blank)
malformed line. -/
def lineErr (s : List Char) : PErr :=
  match pyInt (s.drop 1) with
  | none => PErr.badMagnitude (s.drop 1)
  | some _ => PErr.badDirection s

/-- A stripped non-blank line that both scripts reject fatally: the
magnitude is not a Python integer, or the direction character is neither
`L` nor `R`. -/
def Malformed (s : List Char) : Prop :=
  pyInt (s.drop 1) = none ∨ (s.head? ≠ some 'L' ∧ s.head? ≠ some 'R')

instance (s : List Char) : Decidable (Malformed s) := by
  unfold Malformed; infer_instance

/-! ## day1.py — landing-only variant -/

namespace Day1

/-- The position update of `solve`'s loop body:
`pos = (pos - dist) % 100` / `pos = (pos + dist) % 100`. -/
def applyCmd (pos : Int) (c : Cmd) : Int :=
  match c.dir with
  | Dir.L => (pos - c.dist) % 100
  | Dir.R => (pos + c.dist) % 100

/-- The loop of `day1.solve` over already-split input lines, carrying
`pos` and `hits` exactly as the script does. -/
def run (pos hits : Int) : List (List Char) → Except PErr Int
  | [] => Except.ok hits
  | raw :: rest =>
    match parseLine raw with
    | Except.error e => Except.error e
    | Except.ok none => run pos hits rest
    | Except.ok (some c) =>
      let p2 := applyCmd pos c
      run p2 (if p2 = 0 then hits + 1 else hits) rest

/-- `day1.solve` on the input file's lines: `pos = 50`, `hits = 0`. -/
def solve (lines : List (List Char)) : Except PErr Int :=
  run 50 0 lines

/-- The hit total of `day1.solve`'s loop restricted to an
already-parsed command list, starting at position `pos`. -/
def hitsFrom (pos : Int) : List Cmd → Int
  | [] => 0
  | c :: cs =>
    let p2 := applyCmd pos c
    (if p2 = 0 then 1 else 0) + hitsFrom p2 cs

/-- The dial position after a command list, from the initial position 50. -/
def posAfter (cs : List Cmd) : Int :=
  cs.foldl applyCmd 50

end Day1

/-! ## day1_part2.py — crossing-count variant -/

namespace Day1P2

/-- `count_hits_for_rotation` from day1_part2.py. -/
def count_hits_for_rotation (first_zero_click distance : Int) : Int :=
  if distance < first_zero_click then 0
  else 1 + (distance - first_zero_click) / 100

/-- `count_zeros_right` from day1_part2.py. -/
def count_zeros_right (pos distance : Int) : Int :=
  count_hits_for_rotation (if pos = 0 then 100 else 100 - pos) distance

/-- `count_zeros_left` from day1_part2.py. -/
def count_zeros_left (pos distance : Int) : Int :=
  count_hits_for_rotation (if pos = 0 then 100 else pos) distance

/-- The crossing count the loop adds for one command, from the pre-move
position. -/
def countFor (pos : Int) (c : Cmd) : Int :=
  match c.dir with
  | Dir.L => count_zeros_left pos c.dist
  | Dir.R => count_zeros_right pos c.dist

/-- The position update of `day1_part2.solve`'s loop body (textually the
same update as day1.py's). -/
def applyCmd (pos : Int) (c : Cmd) : Int :=
  match c.dir with
  | Dir.L => (pos - c.dist) % 100
  | Dir.R => (pos + c.dist) % 100

/-- The loop of `day1_part2.solve` over already-split input lines: the
crossing count is added from the pre-move position, then the position is
updated. -/
def run (pos hits : Int) : List (List Char) → Except PErr Int
  | [] => Except.ok hits
  | raw :: rest =>
    match parseLine raw with
    | Except.error e => Except.error e
    | Except.ok none => run pos hits rest
    | Except.ok (some c) => run (applyCmd pos c) (hits + countFor pos c) rest

/-- `day1_part2.solve` on the input file's lines: `pos = 50`, `hits = 0`. -/
def solve (lines : List (List Char)) : Except PErr Int :=
  run 50 0 lines

/-- The hit total of `day1_part2.solve`'s loop restricted to an
already-parsed command list, starting at position `pos`. -/
def hitsFrom (pos : Int) : List Cmd → Int
  | [] => 0
  | c :: cs => countFor pos c + hitsFrom (applyCmd pos c) cs

/-- The dial position after a command list, from the initial position 50. -/
def posAfter (cs : List Cmd) : Int :=
  cs.foldl applyCmd 50

end Day1P2

/-! ## Brute-force unit-step reference simulation (spec section 8)

Modelled from the spec: "a brute-force simulation that moves the dial one
unit at a time in the command's direction and counts each time the
position becomes 0".  One unit step is `(p ± 1) % 100`; after each step
the hit counter is incremented when the position is 0. -/

/-- One unit step in direction `d`. -/
def unitStep (d : Dir) (p : Int) : Int :=
  match d with
  | Dir.L => (p - 1) % 100
  | Dir.R => (p + 1) % 100

/-- The position after `n` single-unit steps in direction `d` from `p`. -/
def brutePos (d : Dir) (p : Int) : Nat → Int
  | 0 => p
  | n + 1 => brutePos d (unitStep d p) n

/-- The number of times, during `n` single-unit steps in direction `d`
from `p`, that a step lands on position 0. -/
def bruteCnt (d : Dir) (p : Int) : Nat → Nat
  | 0 => 0
  | n + 1 => (if unitStep d p = 0 then 1 else 0) + bruteCnt d (unitStep d p) n

/-- Brute-force zero-landing count over a command list from `p`
(magnitudes taken at their non-negative value). -/
def bruteHitsFrom (p : Int) : List Cmd → Nat
  | [] => 0
  | c :: cs =>
    bruteCnt c.dir p c.dist.toNat + bruteHitsFrom (brutePos c.dir p c.dist.toNat) cs

/-! ## day2_part1.py — seed-expansion invalid-ID scanner

Range parsing produces pairs of non-negative integers (a `-` anywhere in a
numeric token is consumed by `token.split("-")`, so parsed endpoints are
unsigned), hence the post-parse computation is embedded over
`List (Nat × Nat)`. -/

namespace Day2P1

/-- The `while n >= 10` loop of `digits_count`, embedded with an explicit
iteration bound so the definition is structural (the bound is immaterial
once it is at least `n`; see `digitsCountAux_congr`). -/
def digitsCountAux (fuel n : Nat) : Nat :=
  match fuel with
  | 0 => 1
  | fuel + 1 => if n < 10 then 1 else digitsCountAux fuel (n / 10) + 1

/-- `digits_count` from day2_part1.py (and, identically, day2_part2.py):
number of decimal digits, with `digits_count 0 = 1`.  It satisfies the
loop's recurrence, `digits_count_eq`. -/
def digits_count (n : Nat) : Nat := digitsCountAux n n

/-- `invalid_from_seed` from day2_part1.py. -/
def invalid_from_seed (seed : Nat) : Nat :=
  seed * (10 ^ digits_count seed + 1)

/-- `seed_limit_for_max_id` from day2_part1.py.  Nat division `(m+1)/2`
is Python's `(max_digits + 1) // 2`. -/
def seed_limit_for_max_id (max_id : Nat) : Nat :=
  10 ^ ((digits_count max_id + 1) / 2)

/-- The running maximum endpoint `max_end` accumulated during parsing
(initially 0, updated when `end > max_end`). -/
def maxEnd (ranges : List (Nat × Nat)) : Nat :=
  ranges.foldl (fun m r => if r.2 > m then r.2 else m) 0

/-- The inner loop over ranges for one candidate: at the first range
containing the candidate, add the candidate and stop. -/
def addFirstMatch (cand : Nat) : List (Nat × Nat) → Nat
  | [] => 0
  | r :: rest => if r.1 ≤ cand ∧ cand ≤ r.2 then cand else addFirstMatch cand rest

/-- The post-parse computation of `day2_part1.solve`: for every seed in
`range(1, seed_limit_for_max_id(max_end))`, add the candidate at its
first matching range. -/
def solveRanges (ranges : List (Nat × Nat)) : Nat :=
  (List.range' 1 (seed_limit_for_max_id (maxEnd ranges) - 1)).foldl
    (fun total seed => total + addFirstMatch (invalid_from_seed seed) ranges) 0

/-- The spec's rendering of the same total (spec section 4.2): the sum,
over all seeds from 1 up to (but excluding) the seed limit, of the
candidate `seed * (10 ^ digitcount seed + 1)` whenever the candidate lies
inside at least one range, each such candidate added exactly once. -/
def specCandSum (ranges : List (Nat × Nat)) : Nat :=
  ∑ seed ∈ Finset.Ico 1 (seed_limit_for_max_id (maxEnd ranges)),
    (if ∃ r ∈ ranges, r.1 ≤ invalid_from_seed seed ∧ invalid_from_seed seed ≤ r.2
     then invalid_from_seed seed else 0)

end Day2P1

/-! ## day2_part2.py — repeated-pattern invalid-ID scanner -/

namespace Day2P2

/-- `repeat_value` from day2_part2.py: `times`-fold
`acc = acc * base + seed` from 0. -/
def repeat_value (seed base : Nat) : Nat → Nat
  | 0 => 0
  | t + 1 => repeat_value seed base t * base + seed

/-- `has_repeated_pattern_len` from day2_part2.py. -/
def has_repeated_pattern_len (value total_len chunk_len : Nat) : Bool :=
  if total_len % chunk_len ≠ 0 then false
  else if total_len / chunk_len < 2 then false
  else decide (repeat_value (value / 10 ^ (total_len - chunk_len)) (10 ^ chunk_len)
        (total_len / chunk_len) = value)

/-- `is_invalid_id` from day2_part2.py: some chunk length in
`range(1, total_len // 2 + 1)` exhibits a repeated pattern. -/
def is_invalid_id (value : Nat) : Bool :=
  (List.range' 1 (Day2P1.digits_count value / 2)).any fun chunk_len =>
    has_repeated_pattern_len value (Day2P1.digits_count value) chunk_len

/-- The post-parse computation of `day2_part2.solve`: enumerate every
value of every range (`range(start, end + 1)`) and add the invalid
ones. -/
def solveRanges (ranges : List (Nat × Nat)) : Nat :=
  ranges.foldl
    (fun total r =>
      (List.range' r.1 (r.2 + 1 - r.1)).foldl
        (fun t v => if is_invalid_id v then t + v else t) total) 0

/-- The spec's invalidity notion (spec section 4.3): the decimal
representation of length `L` is an exact repetition, two or more times
with no remainder, of a shorter chunk of length `c` dividing `L`, the
chunk being the value's leading `c` digits (`value / 10 ^ (L - c)`),
repeated `L / c` times via `acc * 10 ^ c + seed` starting from 0. -/
def SpecInvalid (v : Nat) : Prop :=
  ∃ c ∈ Finset.Ioo 0 (Day2P1.digits_count v),
    Day2P1.digits_count v % c = 0 ∧
    2 ≤ Day2P1.digits_count v / c ∧
    repeat_value (v / 10 ^ (Day2P1.digits_count v - c)) (10 ^ c)
      (Day2P1.digits_count v / c) = v

instance (v : Nat) : Decidable (SpecInvalid v) := by
  unfold SpecInvalid; infer_instance

/-- The spec's rendering of the repeated-pattern total: the sum over the
ranges, in order, of the invalid values each range contains. -/
def specRepeatSum (ranges : List (Nat × Nat)) : Nat :=
  (ranges.map (fun r => ∑ v ∈ Finset.Icc r.1 r.2, if SpecInvalid v then v else 0)).sum

end Day2P2

/-- The line format claimed by the spec for the hit counters:
`<L|R><non-negative integer>` — a direction character `L` or `R` followed
directly by a non-empty string of decimal digits. -/
def ClaimedForm (s : List Char) : Prop :=
  (s.head? = some 'L' ∨ s.head? = some 'R') ∧ s.drop 1 ≠ [] ∧
    (s.drop 1).all Char.isDigit = true

instance (s : List Char) : Decidable (ClaimedForm s) := by
  unfold ClaimedForm; infer_instance

/-! ## build-vsix.py — archive builder

The script's effectful surface is embedded as a pure function of the
package manifest fields and a file-existence predicate: the archive's
entry-name list (two generated entries written with `writestr`, then each
allowlisted file that exists, under an `extension/` prefix) and the path
printed at the end. -/

namespace Vsix

structure Pkg : Type where
  publisher : String
  name : String
  version : String
deriving DecidableEq, Repr

/-- The `include_files` allowlist from build-vsix.py. -/
def include_files : List String :=
  ["package.json", "README.md", "language-configuration.json", ".vscodeignore",
   "syntaxes/flux.tmLanguage.json"]

/-- `dist/<name>-<version>.vsix`, relative to the extension root. -/
def vsixPath (pkg : Pkg) : String :=
  "dist/" ++ pkg.name ++ "-" ++ pkg.version ++ ".vsix"

/-- The archive's entry names, in write order: the two generated entries,
then every allowlisted file that exists, as `extension/<rel>`.  A file
that does not exist is skipped without failing. -/
def archiveEntries (onDisk : String → Bool) : List String :=
  "extension.vsixmanifest" :: "[Content_Types].xml" ::
    (include_files.filter onDisk).map (fun rel => "extension/" ++ rel)

/-- The script's observable result: the archive is written with these
entries and the archive path is printed. -/
structure Result : Type where
  entries : List String
  printed : String
deriving DecidableEq, Repr

/-- The whole build, as a function of the manifest and the file system. -/
def build (pkg : Pkg) (onDisk : String → Bool) : Result :=
  { entries := archiveEntries onDisk, printed := vsixPath pkg }

end Vsix

/-! ## Helper lemmas -/

theorem day1_applyCmd_nonneg (p : Int) (c : Cmd) : 0 ≤ Day1.applyCmd p c := by
  cases c with
  | mk dir dist => cases dir <;> simp only [Day1.applyCmd] <;> omega

theorem day1_applyCmd_lt (p : Int) (c : Cmd) : Day1.applyCmd p c < 100 := by
  cases c with
  | mk dir dist => cases dir <;> simp only [Day1.applyCmd] <;> omega

theorem day1p2_applyCmd_eq_day1 : Day1P2.applyCmd = Day1.applyCmd := rfl

theorem day1_foldl_applyCmd_mem (cs : List Cmd) (p : Int) (h0 : 0 ≤ p)
    (h1 : p < 100) : 0 ≤ cs.foldl Day1.applyCmd p ∧ cs.foldl Day1.applyCmd p < 100 := by
  induction cs generalizing p with
  | nil => exact ⟨h0, h1⟩
  | cons c cs ih =>
    exact ih (Day1.applyCmd p c) (day1_applyCmd_nonneg p c) (day1_applyCmd_lt p c)

theorem day1p2_applyCmd_nonneg (p : Int) (c : Cmd) : 0 ≤ Day1P2.applyCmd p c := by
  rw [day1p2_applyCmd_eq_day1]; exact day1_applyCmd_nonneg p c

theorem day1p2_applyCmd_lt (p : Int) (c : Cmd) : Day1P2.applyCmd p c < 100 := by
  rw [day1p2_applyCmd_eq_day1]; exact day1_applyCmd_lt p c

theorem brutePos_R (n : Nat) : ∀ p : Int, 0 ≤ p → p < 100 →
    brutePos Dir.R p n = (p + n) % 100 := by
  induction n with
  | zero => intro p h0 h1; simp [brutePos]; omega
  | succ n ih =>
    intro p h0 h1
    have h2 : brutePos Dir.R p (n + 1) = brutePos Dir.R ((p + 1) % 100) n := rfl
    rw [h2, ih ((p + 1) % 100) (by omega) (by omega)]
    omega

theorem brutePos_L (n : Nat) : ∀ p : Int, 0 ≤ p → p < 100 →
    brutePos Dir.L p n = (p - n) % 100 := by
  induction n with
  | zero => intro p h0 h1; simp [brutePos]; omega
  | succ n ih =>
    intro p h0 h1
    have h2 : brutePos Dir.L p (n + 1) = brutePos Dir.L ((p - 1) % 100) n := rfl
    rw [h2, ih ((p - 1) % 100) (by omega) (by omega)]
    omega

theorem bruteCnt_R_succ (n : Nat) : ∀ p : Int,
    bruteCnt Dir.R p (n + 1) =
      bruteCnt Dir.R p n + (if (p + n + 1) % 100 = 0 then 1 else 0) := by
  induction n with
  | zero =>
    intro p
    show (if (p + 1) % 100 = 0 then 1 else 0) + 0 = 0 + _
    split_ifs with h1 h2 <;> omega
  | succ n ih =>
    intro p
    show (if (p + 1) % 100 = 0 then 1 else 0) + bruteCnt Dir.R ((p + 1) % 100) (n + 1) = _
    rw [ih ((p + 1) % 100)]
    show _ = (if (p + 1) % 100 = 0 then 1 else 0) + bruteCnt Dir.R ((p + 1) % 100) n + _
    have h3 : ((p + 1) % 100 + n + 1) % 100 = 0 ↔ (p + (n + 1) + 1) % 100 = 0 := by omega
    split_ifs with h1 h2 <;> omega

theorem bruteCnt_L_succ (n : Nat) : ∀ p : Int,
    bruteCnt Dir.L p (n + 1) =
      bruteCnt Dir.L p n + (if (p - (n + 1)) % 100 = 0 then 1 else 0) := by
  induction n with
  | zero =>
    intro p
    show (if (p - 1) % 100 = 0 then 1 else 0) + 0 = 0 + _
    split_ifs with h1 h2 <;> omega
  | succ n ih =>
    intro p
    show (if (p - 1) % 100 = 0 then 1 else 0) + bruteCnt Dir.L ((p - 1) % 100) (n + 1) = _
    rw [ih ((p - 1) % 100)]
    show _ = (if (p - 1) % 100 = 0 then 1 else 0) + bruteCnt Dir.L ((p - 1) % 100) n + _
    have h3 : ((p - 1) % 100 - (n + 1)) % 100 = 0 ↔ (p - (n + 1 + 1)) % 100 = 0 := by omega
    split_ifs with h1 h2 <;> omega

theorem bruteCnt_R_closed (n : Nat) (p : Int) (h0 : 0 ≤ p) (h1 : p < 100) :
    (bruteCnt Dir.R p n : Int) = Day1P2.count_zeros_right p n := by
  induction n with
  | zero =>
    show (0 : Int) = _
    unfold Day1P2.count_zeros_right Day1P2.count_hits_for_rotation
    split_ifs <;> omega
  | succ n ih =>
    rw [bruteCnt_R_succ]
    push_cast
    rw [ih]
    unfold Day1P2.count_zeros_right Day1P2.count_hits_for_rotation
    split_ifs <;> omega

theorem bruteCnt_L_closed (n : Nat) (p : Int) (h0 : 0 ≤ p) (h1 : p < 100) :
    (bruteCnt Dir.L p n : Int) = Day1P2.count_zeros_left p n := by
  induction n with
  | zero =>
    show (0 : Int) = _
    unfold Day1P2.count_zeros_left Day1P2.count_hits_for_rotation
    split_ifs <;> omega
  | succ n ih =>
    rw [bruteCnt_L_succ]
    push_cast
    rw [ih]
    unfold Day1P2.count_zeros_left Day1P2.count_hits_for_rotation
    split_ifs <;> omega

theorem brutePos_cmd (p : Int) (c : Cmd) (h0 : 0 ≤ p) (h1 : p < 100)
    (hd : 0 ≤ c.dist) : brutePos c.dir p c.dist.toNat = Day1P2.applyCmd p c := by
  cases c with
  | mk dir dist =>
    dsimp only at hd ⊢
    cases dir
    · rw [brutePos_L _ _ h0 h1]
      show _ = (p - dist) % 100
      omega
    · rw [brutePos_R _ _ h0 h1]
      show _ = (p + dist) % 100
      omega

theorem bruteCnt_cmd (p : Int) (c : Cmd) (h0 : 0 ≤ p) (h1 : p < 100)
    (hd : 0 ≤ c.dist) : (bruteCnt c.dir p c.dist.toNat : Int) = Day1P2.countFor p c := by
  cases c with
  | mk dir dist =>
    dsimp only at hd ⊢
    have hc : ((dist.toNat : Nat) : Int) = dist := by omega
    cases dir
    · rw [bruteCnt_L_closed _ _ h0 h1]
      show Day1P2.count_zeros_left p _ = Day1P2.count_zeros_left p dist
      rw [hc]
    · rw [bruteCnt_R_closed _ _ h0 h1]
      show Day1P2.count_zeros_right p _ = Day1P2.count_zeros_right p dist
      rw [hc]

theorem bruteHitsFrom_eq (cs : List Cmd) : ∀ p : Int, 0 ≤ p → p < 100 →
    (∀ c ∈ cs, 0 ≤ c.dist) → (bruteHitsFrom p cs : Int) = Day1P2.hitsFrom p cs := by
  induction cs with
  | nil => intro p _ _ _; rfl
  | cons c cs ih =>
    intro p h0 h1 hd
    have hdc : 0 ≤ c.dist := hd c (List.mem_cons_self c cs)
    show ((bruteCnt c.dir p c.dist.toNat + bruteHitsFrom (brutePos c.dir p c.dist.toNat) cs : Nat) : Int) =
      Day1P2.countFor p c + Day1P2.hitsFrom (Day1P2.applyCmd p c) cs
    push_cast
    rw [bruteCnt_cmd p c h0 h1 hdc, brutePos_cmd p c h0 h1 hdc,
      ih (Day1P2.applyCmd p c) (day1p2_applyCmd_nonneg p c) (day1p2_applyCmd_lt p c)
        (fun x hx => hd x (List.mem_cons_of_mem c hx))]

theorem landing_le_countFor (p : Int) (c : Cmd) (h0 : 0 ≤ p) (h1 : p < 100)
    (hd : 1 ≤ c.dist) :
    (if Day1.applyCmd p c = 0 then (1 : Int) else 0) ≤ Day1P2.countFor p c := by
  cases c with
  | mk dir dist =>
    dsimp only at hd
    cases dir
    · show (if (p - dist) % 100 = 0 then (1 : Int) else 0) ≤ Day1P2.count_zeros_left p dist
      unfold Day1P2.count_zeros_left Day1P2.count_hits_for_rotation
      split_ifs <;> omega
    · show (if (p + dist) % 100 = 0 then (1 : Int) else 0) ≤ Day1P2.count_zeros_right p dist
      unfold Day1P2.count_zeros_right Day1P2.count_hits_for_rotation
      split_ifs <;> omega

theorem day1_hitsFrom_le (cs : List Cmd) : ∀ p : Int, 0 ≤ p → p < 100 →
    (∀ c ∈ cs, 1 ≤ c.dist) → Day1.hitsFrom p cs ≤ Day1P2.hitsFrom p cs := by
  induction cs with
  | nil => intro p _ _ _; exact le_refl 0
  | cons c cs ih =>
    intro p h0 h1 hd
    show (if Day1.applyCmd p c = 0 then (1 : Int) else 0) + Day1.hitsFrom (Day1.applyCmd p c) cs ≤
      Day1P2.countFor p c + Day1P2.hitsFrom (Day1P2.applyCmd p c) cs
    have h2 : Day1.applyCmd p c = Day1P2.applyCmd p c := by rw [day1p2_applyCmd_eq_day1]
    have h3 := landing_le_countFor p c h0 h1 (hd c (List.mem_cons_self c cs))
    have h4 : Day1.hitsFrom (Day1.applyCmd p c) cs ≤ Day1P2.hitsFrom (Day1P2.applyCmd p c) cs := by
      rw [h2]
      exact ih (Day1P2.applyCmd p c) (day1p2_applyCmd_nonneg p c) (day1p2_applyCmd_lt p c)
        (fun x hx => hd x (List.mem_cons_of_mem c hx))
    omega


theorem parseLine_blank (raw : List Char) (h : pyStrip raw = []) :
    parseLine raw = Except.ok none := by
  unfold parseLine
  rw [h]

theorem parseLine_malformed (raw : List Char) (h1 : pyStrip raw ≠ [])
    (h2 : Malformed (pyStrip raw)) :
    parseLine raw = Except.error (lineErr (pyStrip raw)) := by
  unfold parseLine lineErr
  cases hs : pyStrip raw with
  | nil => exact absurd hs h1
  | cons c0 tl =>
    rw [hs] at h2
    unfold Malformed at h2
    simp only [List.drop_succ_cons, List.drop_zero, List.head?_cons] at h2
    cases hpi : pyInt tl with
    | none => simp [hpi]
    | some d =>
      rcases h2 with h2 | ⟨hL, hR⟩
      · exact absurd h2 (by simp [hpi])
      · have hL' : c0 ≠ 'L' := by simpa using hL
        have hR' : c0 ≠ 'R' := by simpa using hR
        simp [hpi, hL', hR']

theorem parseLine_ok (raw : List Char) (h1 : pyStrip raw ≠ [])
    (h2 : ¬ Malformed (pyStrip raw)) :
    ∃ c, parseLine raw = Except.ok (some c) := by
  unfold Malformed at h2
  push_neg at h2
  obtain ⟨hpi, hdir⟩ := h2
  unfold parseLine
  cases hs : pyStrip raw with
  | nil => exact absurd hs h1
  | cons c0 tl =>
    rw [hs] at hpi hdir
    simp only [List.drop_succ_cons, List.drop_zero] at hpi
    cases hpi2 : pyInt tl with
    | none => exact absurd hpi2 hpi
    | some d =>
      by_cases hL : c0 = 'L'
      · exact ⟨⟨Dir.L, d⟩, by simp [hL, hpi2]⟩
      · have hR : c0 = 'R' := by
          have h3 := hdir (by simp [hL])
          simpa using h3
        exact ⟨⟨Dir.R, d⟩, by simp [hL, hR, hpi2]⟩

theorem day1_run_skips_blank (raw : List Char) (rest : List (List Char))
    (pos hits : Int) (h : pyStrip raw = []) :
    Day1.run pos hits (raw :: rest) = Day1.run pos hits rest := by
  show (match parseLine raw with
    | Except.error e => Except.error e
    | Except.ok none => Day1.run pos hits rest
    | Except.ok (some c) =>
      Day1.run (Day1.applyCmd pos c)
        (if Day1.applyCmd pos c = 0 then hits + 1 else hits) rest) = _
  rw [parseLine_blank raw h]

theorem day1p2_run_skips_blank (raw : List Char) (rest : List (List Char))
    (pos hits : Int) (h : pyStrip raw = []) :
    Day1P2.run pos hits (raw :: rest) = Day1P2.run pos hits rest := by
  show (match parseLine raw with
    | Except.error e => Except.error e
    | Except.ok none => Day1P2.run pos hits rest
    | Except.ok (some c) =>
      Day1P2.run (Day1P2.applyCmd pos c) (hits + Day1P2.countFor pos c) rest) = _
  rw [parseLine_blank raw h]

theorem day1_run_error (lines : List (List Char)) :
    ∀ pos hits : Int, (∃ l ∈ lines, pyStrip l ≠ [] ∧ Malformed (pyStrip l)) →
      ∃ l ∈ lines, pyStrip l ≠ [] ∧ Malformed (pyStrip l) ∧
        Day1.run pos hits lines = Except.error (lineErr (pyStrip l)) := by
  induction lines with
  | nil => rintro pos hits ⟨l, hl, _⟩; cases hl
  | cons raw rest ih =>
    intro pos hits hex
    by_cases hb : pyStrip raw = []
    · obtain ⟨l, hl, hne, hm⟩ := hex
      rcases List.mem_cons.mp hl with rfl | hl2
      · exact absurd hb hne
      · obtain ⟨l', hl', hne', hm', hrun'⟩ := ih pos hits ⟨l, hl2, hne, hm⟩
        exact ⟨l', List.mem_cons_of_mem _ hl', hne', hm',
          by rw [day1_run_skips_blank raw rest pos hits hb]; exact hrun'⟩
    · by_cases hm : Malformed (pyStrip raw)
      · refine ⟨raw, List.mem_cons_self raw rest, hb, hm, ?_⟩
        show (match parseLine raw with
          | Except.error e => Except.error e
          | Except.ok none => Day1.run pos hits rest
          | Except.ok (some c) =>
            Day1.run (Day1.applyCmd pos c)
              (if Day1.applyCmd pos c = 0 then hits + 1 else hits) rest) = _
        rw [parseLine_malformed raw hb hm]
      · obtain ⟨c, hc⟩ := parseLine_ok raw hb hm
        obtain ⟨l, hl, hne, hmm⟩ := hex
        rcases List.mem_cons.mp hl with rfl | hl2
        · exact absurd hmm hm
        · obtain ⟨l', hl', hne', hm', hrun'⟩ :=
            ih (Day1.applyCmd pos c)
              (if Day1.applyCmd pos c = 0 then hits + 1 else hits) ⟨l, hl2, hne, hmm⟩
          refine ⟨l', List.mem_cons_of_mem _ hl', hne', hm', ?_⟩
          show (match parseLine raw with
            | Except.error e => Except.error e
            | Except.ok none => Day1.run pos hits rest
            | Except.ok (some c) =>
              Day1.run (Day1.applyCmd pos c)
                (if Day1.applyCmd pos c = 0 then hits + 1 else hits) rest) = _
          rw [hc]
          exact hrun'

theorem day1p2_run_error (lines : List (List Char)) :
    ∀ pos hits : Int, (∃ l ∈ lines, pyStrip l ≠ [] ∧ Malformed (pyStrip l)) →
      ∃ l ∈ lines, pyStrip l ≠ [] ∧ Malformed (pyStrip l) ∧
        Day1P2.run pos hits lines = Except.error (lineErr (pyStrip l)) := by
  induction lines with
  | nil => rintro pos hits ⟨l, hl, _⟩; cases hl
  | cons raw rest ih =>
    intro pos hits hex
    by_cases hb : pyStrip raw = []
    · obtain ⟨l, hl, hne, hm⟩ := hex
      rcases List.mem_cons.mp hl with rfl | hl2
      · exact absurd hb hne
      · obtain ⟨l', hl', hne', hm', hrun'⟩ := ih pos hits ⟨l, hl2, hne, hm⟩
        exact ⟨l', List.mem_cons_of_mem _ hl', hne', hm',
          by rw [day1p2_run_skips_blank raw rest pos hits hb]; exact hrun'⟩
    · by_cases hm : Malformed (pyStrip raw)
      · refine ⟨raw, List.mem_cons_self raw rest, hb, hm, ?_⟩
        show (match parseLine raw with
          | Except.error e => Except.error e
          | Except.ok none => Day1P2.run pos hits rest
          | Except.ok (some c) =>
            Day1P2.run (Day1P2.applyCmd pos c) (hits + Day1P2.countFor pos c) rest) = _
        rw [parseLine_malformed raw hb hm]
      · obtain ⟨c, hc⟩ := parseLine_ok raw hb hm
        obtain ⟨l, hl, hne, hmm⟩ := hex
        rcases List.mem_cons.mp hl with rfl | hl2
        · exact absurd hmm hm
        · obtain ⟨l', hl', hne', hm', hrun'⟩ :=
            ih (Day1P2.applyCmd pos c) (hits + Day1P2.countFor pos c) ⟨l, hl2, hne, hmm⟩
          refine ⟨l', List.mem_cons_of_mem _ hl', hne', hm', ?_⟩
          show (match parseLine raw with
            | Except.error e => Except.error e
            | Except.ok none => Day1P2.run pos hits rest
            | Except.ok (some c) =>
              Day1P2.run (Day1P2.applyCmd pos c) (hits + Day1P2.countFor pos c) rest) = _
          rw [hc]
          exact hrun'

theorem digitsCountAux_congr (f1 : Nat) : ∀ (f2 n : Nat), n ≤ f1 → n ≤ f2 →
    Day2P1.digitsCountAux f1 n = Day2P1.digitsCountAux f2 n := by
  induction f1 with
  | zero =>
    intro f2 n h1 h2
    interval_cases n
    cases f2 <;> simp [Day2P1.digitsCountAux]
  | succ f1 ih =>
    intro f2 n h1 h2
    by_cases hn : n < 10
    · cases f2 with
      | zero =>
        interval_cases n
        simp [Day2P1.digitsCountAux]
      | succ f2 => simp [Day2P1.digitsCountAux, hn]
    · cases f2 with
      | zero => omega
      | succ f2 =>
        show (if n < 10 then 1 else Day2P1.digitsCountAux f1 (n / 10) + 1) =
          (if n < 10 then 1 else Day2P1.digitsCountAux f2 (n / 10) + 1)
        rw [if_neg hn, if_neg hn, ih f2 (n / 10) (by omega) (by omega)]

/-- `digits_count` satisfies the recurrence of the Python loop. -/
theorem digits_count_eq (n : Nat) :
    Day2P1.digits_count n =
      if n < 10 then 1 else Day2P1.digits_count (n / 10) + 1 := by
  by_cases hn : n < 10
  · rw [if_pos hn]
    unfold Day2P1.digits_count
    cases hc : n with
    | zero => simp [Day2P1.digitsCountAux]
    | succ m => simp [Day2P1.digitsCountAux, hc ▸ hn]
  · rw [if_neg hn]
    unfold Day2P1.digits_count
    obtain ⟨m, rfl⟩ : ∃ m, n = m + 1 := ⟨n - 1, by omega⟩
    have h1 : Day2P1.digitsCountAux (m + 1) (m + 1) =
        if m + 1 < 10 then 1 else Day2P1.digitsCountAux m ((m + 1) / 10) + 1 := rfl
    rw [h1, if_neg hn,
      digitsCountAux_congr m ((m + 1) / 10) ((m + 1) / 10) (by omega) (le_refl _)]

theorem foldl_add_range' (f : Nat → Nat) :
    ∀ (n s a : Nat), (List.range' s n).foldl (fun t x => t + f x) a =
      a + ∑ x ∈ Finset.Ico s (s + n), f x := by
  intro n
  induction n with
  | zero => intro s a; simp
  | succ n ih =>
    intro s a
    have h1 : List.range' s (n + 1) = s :: List.range' (s + 1) n := rfl
    rw [h1]
    show (List.range' (s + 1) n).foldl (fun t x => t + f x) (a + f s) = _
    rw [ih (s + 1) (a + f s)]
    rw [Finset.sum_eq_sum_Ico_succ_bot (by omega : s < s + (n + 1)) f]
    have h2 : s + 1 + n = s + (n + 1) := by omega
    rw [h2]
    omega

theorem addFirstMatch_eq (cand : Nat) (ranges : List (Nat × Nat)) :
    Day2P1.addFirstMatch cand ranges =
      if ∃ r ∈ ranges, r.1 ≤ cand ∧ cand ≤ r.2 then cand else 0 := by
  induction ranges with
  | nil => simp [Day2P1.addFirstMatch]
  | cons r rest ih =>
    show (if r.1 ≤ cand ∧ cand ≤ r.2 then cand else Day2P1.addFirstMatch cand rest) = _
    by_cases hr : r.1 ≤ cand ∧ cand ≤ r.2
    · rw [if_pos hr, if_pos ⟨r, List.mem_cons_self r rest, hr⟩]
    · rw [if_neg hr, ih]
      by_cases hex : ∃ x ∈ rest, x.1 ≤ cand ∧ cand ≤ x.2
      · obtain ⟨x, hx, hxc⟩ := hex
        rw [if_pos ⟨x, hx, hxc⟩, if_pos ⟨x, List.mem_cons_of_mem r hx, hxc⟩]
      · rw [if_neg hex, if_neg ?_]
        rintro ⟨x, hx, hxc⟩
        rcases List.mem_cons.mp hx with rfl | hx2
        · exact hr hxc
        · exact hex ⟨x, hx2, hxc⟩

theorem seed_limit_pos (m : Nat) : 1 ≤ Day2P1.seed_limit_for_max_id m :=
  Nat.one_le_pow _ _ (by omega)

theorem has_pattern_iff (v L c : Nat) :
    Day2P2.has_repeated_pattern_len v L c = true ↔
      (L % c = 0 ∧ 2 ≤ L / c ∧
        Day2P2.repeat_value (v / 10 ^ (L - c)) (10 ^ c) (L / c) = v) := by
  unfold Day2P2.has_repeated_pattern_len
  by_cases h1 : L % c ≠ 0
  · simp [h1]
  · rw [if_neg h1]
    by_cases h2 : L / c < 2
    · simp [h2]
    · rw [if_neg h2]
      simp [not_ne_iff.mp h1]
      omega

theorem is_invalid_id_iff (v : Nat) :
    Day2P2.is_invalid_id v = true ↔ Day2P2.SpecInvalid v := by
  unfold Day2P2.is_invalid_id Day2P2.SpecInvalid
  rw [List.any_eq_true]
  constructor
  · rintro ⟨c, hc, hp⟩
    have hcm := List.mem_range'_1.mp hc
    rw [has_pattern_iff] at hp
    obtain ⟨hmod, hrep, heq⟩ := hp
    have h3 : Day2P1.digits_count v / c * c = Day2P1.digits_count v :=
      Nat.div_mul_cancel (Nat.dvd_of_mod_eq_zero hmod)
    have h4 : 2 * c ≤ Day2P1.digits_count v / c * c := Nat.mul_le_mul_right c hrep
    exact ⟨c, Finset.mem_Ioo.mpr ⟨by omega, by omega⟩, hmod, hrep, heq⟩
  · rintro ⟨c, hc, hmod, hrep, heq⟩
    have hio := Finset.mem_Ioo.mp hc
    have h3 : Day2P1.digits_count v / c * c = Day2P1.digits_count v :=
      Nat.div_mul_cancel (Nat.dvd_of_mod_eq_zero hmod)
    have h4 : 2 * c ≤ Day2P1.digits_count v / c * c :=
      Nat.mul_le_mul_right c hrep
    refine ⟨c, List.mem_range'_1.mpr ⟨by omega, by omega⟩, ?_⟩
    exact (has_pattern_iff v _ c).mpr ⟨hmod, hrep, heq⟩

theorem foldl_if_body (p : Nat → Bool) : ∀ (l : List Nat) (a : Nat),
    l.foldl (fun t v => if p v then t + v else t) a =
      l.foldl (fun t v => t + (if p v then v else 0)) a := by
  intro l
  induction l with
  | nil => intro a; rfl
  | cons x xs ih =>
    intro a
    show xs.foldl _ (if p x then a + x else a) = xs.foldl _ (a + (if p x then x else 0))
    by_cases hx : p x <;> simp [hx, ih]

theorem day2p2_inner_sum (r : Nat × Nat) (a : Nat) :
    (List.range' r.1 (r.2 + 1 - r.1)).foldl
      (fun t v => if Day2P2.is_invalid_id v then t + v else t) a =
      a + ∑ v ∈ Finset.Icc r.1 r.2, (if Day2P2.SpecInvalid v then v else 0) := by
  rw [foldl_if_body Day2P2.is_invalid_id,
    foldl_add_range' (fun v => if Day2P2.is_invalid_id v then v else 0)]
  congr 1
  by_cases hle : r.1 ≤ r.2 + 1
  · have h2 : r.1 + (r.2 + 1 - r.1) = r.2 + 1 := by omega
    rw [h2, Nat.Ico_succ_right]
    exact Finset.sum_congr rfl fun v _ => by simp only [is_invalid_id_iff]
  · have h2 : r.2 + 1 - r.1 = 0 := by omega
    have h3 : Finset.Icc r.1 r.2 = ∅ := Finset.Icc_eq_empty (by omega)
    rw [h2, h3]
    simp

theorem day2p2_foldl_eq (ranges : List (Nat × Nat)) : ∀ a : Nat,
    ranges.foldl
      (fun total r =>
        (List.range' r.1 (r.2 + 1 - r.1)).foldl
          (fun t v => if Day2P2.is_invalid_id v then t + v else t) total) a =
      a + Day2P2.specRepeatSum ranges := by
  induction ranges with
  | nil => intro a; simp [Day2P2.specRepeatSum]
  | cons r rest ih =>
    intro a
    show rest.foldl _ ((List.range' r.1 (r.2 + 1 - r.1)).foldl _ a) = _
    rw [ih, day2p2_inner_sum r a]
    unfold Day2P2.specRepeatSum
    simp only [List.map_cons, List.sum_cons]
    omega

theorem dc_pos (n : Nat) : 1 ≤ Day2P1.digits_count n := by
  rw [digits_count_eq]
  split_ifs <;> omega

theorem dc_lt (n : Nat) : n < 10 ^ Day2P1.digits_count n := by
  induction n using Nat.strong_induction_on with
  | _ n ih =>
    rw [digits_count_eq]
    by_cases h : n < 10
    · rw [if_pos h]
      simpa using h
    · rw [if_neg h]
      have ihn := ih (n / 10) (by omega)
      have hp : 10 ^ (Day2P1.digits_count (n / 10) + 1) =
          10 ^ Day2P1.digits_count (n / 10) * 10 := pow_succ 10 _
      omega

theorem dc_le (n : Nat) (hn : 1 ≤ n) : 10 ^ (Day2P1.digits_count n - 1) ≤ n := by
  induction n using Nat.strong_induction_on with
  | _ n ih =>
    rw [digits_count_eq]
    by_cases h : n < 10
    · rw [if_pos h]
      simpa using hn
    · rw [if_neg h]
      have ihn := ih (n / 10) (by omega) (by omega)
      have hpos := dc_pos (n / 10)
      have he : Day2P1.digits_count (n / 10) + 1 - 1 = Day2P1.digits_count (n / 10) := by omega
      rw [he]
      have he2 : Day2P1.digits_count (n / 10) = Day2P1.digits_count (n / 10) - 1 + 1 := by omega
      rw [he2, pow_succ]
      omega

theorem dc_eq_of_bounds (n k : Nat) (hk : 1 ≤ k) (h1 : 10 ^ (k - 1) ≤ n)
    (h2 : n < 10 ^ k) : Day2P1.digits_count n = k := by
  have hn1 : 1 ≤ n := le_trans (Nat.one_le_pow _ _ (by omega)) h1
  rcases lt_trichotomy (Day2P1.digits_count n) k with h | h | h
  · exfalso
    have h3 : 10 ^ Day2P1.digits_count n ≤ 10 ^ (k - 1) :=
      Nat.pow_le_pow_right (by omega) (by omega)
    have h4 := dc_lt n
    omega
  · exact h
  · exfalso
    have h3 : 10 ^ k ≤ 10 ^ (Day2P1.digits_count n - 1) :=
      Nat.pow_le_pow_right (by omega) (by omega)
    have h4 := dc_le n hn1
    omega

theorem dc_mono (m n : Nat) (h : m ≤ n) :
    Day2P1.digits_count m ≤ Day2P1.digits_count n := by
  by_cases hm : m = 0
  · have h0 : Day2P1.digits_count 0 = 1 := rfl
    rw [hm, h0]
    exact dc_pos n
  · by_contra hc
    have h3 : 10 ^ Day2P1.digits_count n ≤ 10 ^ (Day2P1.digits_count m - 1) :=
      Nat.pow_le_pow_right (by omega) (by omega)
    have h4 := dc_le m (by omega)
    have h5 := dc_lt n
    omega

theorem dc_invalid_from_seed (s : Nat) (hs : 1 ≤ s) :
    Day2P1.digits_count (Day2P1.invalid_from_seed s) = 2 * Day2P1.digits_count s := by
  have hk : 1 ≤ Day2P1.digits_count s := dc_pos s
  have hsA : s < 10 ^ Day2P1.digits_count s := dc_lt s
  have hsB : 10 ^ (Day2P1.digits_count s - 1) ≤ s := dc_le s hs
  apply dc_eq_of_bounds _ _ (by omega)
  · -- 10 ^ (2 * dc s - 1) ≤ s * (10 ^ dc s + 1)
    have hp : 10 ^ (2 * Day2P1.digits_count s - 1) =
        10 ^ (Day2P1.digits_count s - 1) * 10 ^ Day2P1.digits_count s := by
      rw [← pow_add]
      congr 1
      omega
    unfold Day2P1.invalid_from_seed
    rw [hp]
    calc 10 ^ (Day2P1.digits_count s - 1) * 10 ^ Day2P1.digits_count s
        ≤ s * 10 ^ Day2P1.digits_count s := Nat.mul_le_mul_right _ hsB
      _ ≤ s * (10 ^ Day2P1.digits_count s + 1) := Nat.mul_le_mul_left s (by omega)
  · -- s * (10 ^ dc s + 1) < 10 ^ (2 * dc s)
    have hp2 : 10 ^ (2 * Day2P1.digits_count s) =
        10 ^ Day2P1.digits_count s * 10 ^ Day2P1.digits_count s := by
      rw [← pow_add]
      congr 1
      omega
    unfold Day2P1.invalid_from_seed
    rw [hp2]
    obtain ⟨a, ha⟩ : ∃ a, 10 ^ Day2P1.digits_count s = a + 1 :=
      ⟨10 ^ Day2P1.digits_count s - 1, by have := Nat.one_le_pow (Day2P1.digits_count s) 10 (by omega); omega⟩
    rw [ha]
    have hsa : s ≤ a := by omega
    calc s * (a + 1 + 1) ≤ a * (a + 2) := by
          have h6 : s * (a + 1 + 1) = s * (a + 2) := by ring
          have h7 := Nat.mul_le_mul_right (a + 2) hsa
          omega
      _ < (a + 1) * (a + 1) := by nlinarith

theorem le_foldl_maxEnd (l : List (Nat × Nat)) : ∀ a : Nat,
    a ≤ l.foldl (fun m r => if r.2 > m then r.2 else m) a := by
  induction l with
  | nil => intro a; exact le_refl a
  | cons r rest ih =>
    intro a
    refine le_trans ?_ (ih (if r.2 > a then r.2 else a))
    split_ifs <;> omega

theorem mem_le_maxEnd (l : List (Nat × Nat)) : ∀ (a : Nat) (r : Nat × Nat), r ∈ l →
    r.2 ≤ l.foldl (fun m x => if x.2 > m then x.2 else m) a := by
  induction l with
  | nil => intro a r hr; cases hr
  | cons x rest ih =>
    intro a r hr
    rcases List.mem_cons.mp hr with rfl | hr2
    · refine le_trans ?_ (le_foldl_maxEnd rest (if r.2 > a then r.2 else a))
      split_ifs <;> omega
    · exact ih _ r hr2

/-! ## Claim theorems -/

/-- C5: in both hit-counter variants the dial position starts at 50 and,
the update being a modulus normalised to a non-negative result, the
position after processing any prefix of the command sequence always lies
in [0, 100). -/
theorem c5_position_invariant :
    Day1.posAfter [] = 50 ∧ Day1P2.posAfter [] = 50 ∧
    ∀ (cs : List Cmd) (n : Nat),
      (0 ≤ Day1.posAfter (cs.take n) ∧ Day1.posAfter (cs.take n) < 100) ∧
      (0 ≤ Day1P2.posAfter (cs.take n) ∧ Day1P2.posAfter (cs.take n) < 100) := by
  refine ⟨rfl, rfl, fun cs n => ⟨?_, ?_⟩⟩
  · exact day1_foldl_applyCmd_mem (cs.take n) 50 (by omega) (by omega)
  · show 0 ≤ (cs.take n).foldl Day1P2.applyCmd 50 ∧ _
    rw [day1p2_applyCmd_eq_day1]
    exact day1_foldl_applyCmd_mem (cs.take n) 50 (by omega) (by omega)

/-- C2: for a single move of non-negative magnitude `d` from a pre-move
position `p ∈ [0,100)`, the zero-hit count of the crossing variant is 0
when `d < first_zero_click` and `1 + (d - first_zero_click) / 100`
otherwise, with `first_zero_click = 100 - p` (right, `p ≠ 0`), `p` (left,
`p ≠ 0`) and 100 when `p = 0`; the count is taken at the pre-move
position and the position update follows it. -/
theorem c2_single_move_count :
    ∀ (p d : Int), 0 ≤ p → p < 100 → 0 ≤ d →
      (Day1P2.count_zeros_right p d =
        (if d < (if p = 0 then 100 else 100 - p) then 0
         else 1 + (d - (if p = 0 then 100 else 100 - p)) / 100)) ∧
      (Day1P2.count_zeros_left p d =
        (if d < (if p = 0 then 100 else p) then 0
         else 1 + (d - (if p = 0 then 100 else p)) / 100)) ∧
      (∀ (c : Cmd) (cs : List Cmd),
        Day1P2.hitsFrom p (c :: cs) =
          Day1P2.countFor p c + Day1P2.hitsFrom (Day1P2.applyCmd p c) cs) :=
  fun _ _ _ _ _ => ⟨rfl, rfl, fun _ _ => rfl⟩

/-- Witness for C2 at `p = 40`: a right move of 60 and a left move of 40
each hit zero exactly once. -/
theorem c2_single_move_count_witness :
    Day1P2.count_zeros_right 40 60 = 1 ∧ Day1P2.count_zeros_left 40 40 = 1 := by
  have h := c2_single_move_count 40 60 (by decide) (by decide) (by decide)
  have h2 := c2_single_move_count 40 40 (by decide) (by decide) (by decide)
  exact ⟨by rw [h.1]; decide, by rw [h2.2.1]; decide⟩

/-- C10: for every file-existence state, the archive builder succeeds,
its archive holds the generated `extension.vsixmanifest` and
`[Content_Types].xml` entries plus exactly the existing allowlisted files
under an `extension/` prefix (missing ones are skipped, not fatal), and
the archive path is printed. -/
theorem c10_archive_builder :
    ∀ (pkg : Vsix.Pkg) (onDisk : String → Bool),
      (Vsix.build pkg onDisk).printed = Vsix.vsixPath pkg ∧
      (Vsix.build pkg onDisk).entries =
        "extension.vsixmanifest" :: "[Content_Types].xml" ::
          (Vsix.include_files.filter onDisk).map (fun rel => "extension/" ++ rel) ∧
      (∀ e, e ∈ (Vsix.build pkg onDisk).entries ↔
        (e = "extension.vsixmanifest" ∨ e = "[Content_Types].xml" ∨
          ∃ rel ∈ Vsix.include_files, onDisk rel = true ∧ e = "extension/" ++ rel)) := by
  intro pkg onDisk
  refine ⟨rfl, rfl, fun e => ?_⟩
  show e ∈ Vsix.archiveEntries onDisk ↔ _
  simp only [Vsix.archiveEntries, List.mem_cons, List.mem_map, List.mem_filter]
  constructor
  · rintro (h | h | ⟨rel, ⟨hmem, hdisk⟩, hrel⟩)
    · exact Or.inl h
    · exact Or.inr (Or.inl h)
    · exact Or.inr (Or.inr ⟨rel, hmem, hdisk, hrel.symm⟩)
  · rintro (h | h | ⟨rel, hmem, hdisk, hrel⟩)
    · exact Or.inl h
    · exact Or.inr (Or.inl h)
    · exact Or.inr (Or.inr ⟨rel, ⟨hmem, hdisk⟩, hrel.symm⟩)


/-- C1: for every command sequence of non-negative magnitudes, the
crossing-count variant's total from the initial position 50 — and from
every starting position in [0, 100) — equals the zero-landing count of
the brute-force simulation that moves the dial one unit at a time and
counts each time the position becomes 0. -/
theorem c1_crossing_count_equals_brute :
    ∀ (cs : List Cmd), (∀ c ∈ cs, 0 ≤ c.dist) →
      Day1P2.hitsFrom 50 cs = (bruteHitsFrom 50 cs : Int) ∧
      ∀ p : Int, 0 ≤ p → p < 100 → Day1P2.hitsFrom p cs = (bruteHitsFrom p cs : Int) :=
  fun cs hd =>
    ⟨(bruteHitsFrom_eq cs 50 (by omega) (by omega) hd).symm,
     fun p h0 h1 => (bruteHitsFrom_eq cs p h0 h1 hd).symm⟩

set_option maxRecDepth 4000 in
/-- Witness for C1: a single `R250` from 50 crosses zero three times, in
the closed form and in the unit-step simulation alike. -/
theorem c1_crossing_count_equals_brute_witness :
    Day1P2.hitsFrom 50 [⟨Dir.R, 250⟩] = (bruteHitsFrom 50 [⟨Dir.R, 250⟩] : Int) ∧
    Day1P2.hitsFrom 50 [⟨Dir.R, 250⟩] = 3 :=
  ⟨(c1_crossing_count_equals_brute [⟨Dir.R, 250⟩] (by decide)).1, by decide⟩

/-- C8: when every magnitude is at least 1, the two variants traverse the
same dial positions on every prefix, and the crossing-count total is at
least the landing-only total. -/
theorem c8_crossing_total_dominates :
    ∀ (cs : List Cmd), (∀ c ∈ cs, 1 ≤ c.dist) →
      (∀ n : Nat, Day1.posAfter (cs.take n) = Day1P2.posAfter (cs.take n)) ∧
      Day1.hitsFrom 50 cs ≤ Day1P2.hitsFrom 50 cs :=
  fun cs hd =>
    ⟨fun n => by
      unfold Day1.posAfter Day1P2.posAfter
      rw [day1p2_applyCmd_eq_day1],
     day1_hitsFrom_le cs 50 (by omega) (by omega) hd⟩

/-- Witness for C8: on the single command `R50`, both variants count
exactly one hit. -/
theorem c8_crossing_total_dominates_witness :
    Day1.hitsFrom 50 [⟨Dir.R, 50⟩] ≤ Day1P2.hitsFrom 50 [⟨Dir.R, 50⟩] ∧
    Day1.hitsFrom 50 [⟨Dir.R, 50⟩] = 1 ∧ Day1P2.hitsFrom 50 [⟨Dir.R, 50⟩] = 1 :=
  ⟨(c8_crossing_total_dominates [⟨Dir.R, 50⟩] (by decide)).2, by decide, by decide⟩

/-- C6: in both hit-counter variants blank lines are skipped, and a
non-blank line whose direction character is not `L`/`R` or whose
magnitude is not an integer is fatal: `solve` returns the error built
from the offending line and no count is produced. -/
theorem c6_blank_skipped_malformed_fatal :
    (∀ (l : List Char) (rest : List (List Char)) (pos hits : Int), pyStrip l = [] →
      Day1.run pos hits (l :: rest) = Day1.run pos hits rest ∧
      Day1P2.run pos hits (l :: rest) = Day1P2.run pos hits rest) ∧
    (∀ lines : List (List Char), (∃ l ∈ lines, pyStrip l ≠ [] ∧ Malformed (pyStrip l)) →
      (∃ l ∈ lines, pyStrip l ≠ [] ∧ Malformed (pyStrip l) ∧
        Day1.solve lines = Except.error (lineErr (pyStrip l))) ∧
      (∃ l ∈ lines, pyStrip l ≠ [] ∧ Malformed (pyStrip l) ∧
        Day1P2.solve lines = Except.error (lineErr (pyStrip l)))) :=
  ⟨fun l rest pos hits h =>
    ⟨day1_run_skips_blank l rest pos hits h, day1p2_run_skips_blank l rest pos hits h⟩,
   fun lines hex => ⟨day1_run_error lines 50 0 hex, day1p2_run_error lines 50 0 hex⟩⟩

/-- Witness for C6: on the single line `X5`, both solvers abort with the
error naming that line. -/
theorem c6_blank_skipped_malformed_fatal_witness :
    Day1.solve [['X', '5']] = Except.error (PErr.badDirection ['X', '5']) ∧
    Day1P2.solve [['X', '5']] = Except.error (PErr.badDirection ['X', '5']) := by
  obtain ⟨h1, h2⟩ := c6_blank_skipped_malformed_fatal.2 [['X', '5']] (by decide)
  obtain ⟨l, hl, _, _, he⟩ := h1
  obtain ⟨l2, hl2, _, _, he2⟩ := h2
  rw [List.mem_singleton] at hl hl2
  subst hl; subst hl2
  have hv : lineErr (pyStrip ['X', '5']) = PErr.badDirection ['X', '5'] := by decide
  rw [hv] at he he2
  exact ⟨he, he2⟩

/-- Counterexample to C7 as stated: the non-blank line `L-5` is not of
the form `<L|R><non-negative integer>`, yet both solvers accept it and
finish with count 0 instead of failing. -/
theorem c7_claimed_format_counterexample :
    pyStrip ['L', '-', '5'] ≠ [] ∧ ¬ ClaimedForm (pyStrip ['L', '-', '5']) ∧
    Day1.solve [['L', '-', '5']] = Except.ok 0 ∧
    Day1P2.solve [['L', '-', '5']] = Except.ok 0 :=
  ⟨by decide, by decide, rfl, rfl⟩

/-- C7 amended: a non-blank line is accepted exactly when its first
character is `L` or `R` and the remainder is accepted by Python's
`int()` (so signed, whitespace-padded or underscore-grouped magnitudes
also pass); every other non-blank line is a fatal parsing failure. -/
theorem c7_acceptance_characterisation :
    ∀ raw : List Char, pyStrip raw ≠ [] →
      ((∃ c, parseLine raw = Except.ok (some c)) ↔
        (((pyStrip raw).head? = some 'L' ∨ (pyStrip raw).head? = some 'R') ∧
          pyInt ((pyStrip raw).drop 1) ≠ none)) ∧
      ((∀ c, parseLine raw ≠ Except.ok (some c)) → ∃ e, parseLine raw = Except.error e) := by
  intro raw h1
  constructor
  · constructor
    · rintro ⟨c, hc⟩
      by_contra hng
      have hm : Malformed (pyStrip raw) := by
        unfold Malformed
        push_neg at hng
        by_cases hpi : pyInt ((pyStrip raw).drop 1) = none
        · exact Or.inl hpi
        · rcases hd : (pyStrip raw).head? with _ | c0
          · cases hs : pyStrip raw with
            | nil => exact absurd hs h1
            | cons a b => rw [hs] at hd; simp at hd
          · refine Or.inr ⟨?_, ?_⟩
            · intro hL
              rw [hL] at hd
              exact hpi (hng (Or.inl hd))
            · intro hR
              rw [hR] at hd
              exact hpi (hng (Or.inr hd))
      rw [parseLine_malformed raw h1 hm] at hc
      cases hc
    · rintro ⟨hdir, hpi⟩
      apply parseLine_ok raw h1
      unfold Malformed
      push_neg
      refine ⟨hpi, fun hnl => ?_⟩
      rcases hdir with h | h
      · exact absurd h hnl
      · exact h
  · intro hno
    by_cases hm : Malformed (pyStrip raw)
    · exact ⟨lineErr (pyStrip raw), parseLine_malformed raw h1 hm⟩
    · obtain ⟨c, hc⟩ := parseLine_ok raw h1 hm
      exact absurd hc (hno c)

/-- Witness for C7's amended statement: the line `R7` is accepted. -/
theorem c7_acceptance_characterisation_witness :
    (∃ c, parseLine ['R', '7'] = Except.ok (some c)) ∧
    parseLine ['R', '7'] = Except.ok (some ⟨Dir.R, 7⟩) :=
  ⟨(c7_acceptance_characterisation ['R', '7'] (by decide)).1.mpr (by decide), rfl⟩

/-- C3: the seed-expansion solver returns the sum, over all seeds from 1
up to (but excluding) `10 ^ ((digitcount M + 1) / 2)` where `M` is the
maximum range endpoint, of the candidate `seed * (10 ^ digitcount seed + 1)`
whenever the candidate lies in at least one range (first match in input
order; added once); for the single range 11-99 the result is 495. -/
theorem c3_seed_expansion_sum :
    (∀ ranges : List (Nat × Nat), Day2P1.solveRanges ranges = Day2P1.specCandSum ranges) ∧
    Day2P1.solveRanges [(11, 99)] = 495 := by
  refine ⟨fun ranges => ?_, by decide⟩
  unfold Day2P1.solveRanges Day2P1.specCandSum
  rw [foldl_add_range' (fun seed => Day2P1.addFirstMatch (Day2P1.invalid_from_seed seed) ranges)]
  have hl := seed_limit_pos (Day2P1.maxEnd ranges)
  have h2 : 1 + (Day2P1.seed_limit_for_max_id (Day2P1.maxEnd ranges) - 1) =
      Day2P1.seed_limit_for_max_id (Day2P1.maxEnd ranges) := by omega
  rw [h2, Nat.zero_add]
  exact Finset.sum_congr rfl fun seed _ => addFirstMatch_eq _ ranges

/-- C4: the repeated-pattern solver returns the sum of every integer of
every range whose decimal representation is an exact repetition (two or
more times, no remainder) of its leading chunk of some length dividing
the total length, each invalid value contributing once per enumeration
regardless of how many chunk lengths match; 1212 and 123123 are invalid,
1213 is valid. -/
theorem c4_repeated_pattern_sum :
    (∀ ranges : List (Nat × Nat), Day2P2.solveRanges ranges = Day2P2.specRepeatSum ranges) ∧
    Day2P2.is_invalid_id 1212 = true ∧ Day2P2.is_invalid_id 123123 = true ∧
    Day2P2.is_invalid_id 1213 = false :=
  ⟨fun ranges => by
    unfold Day2P2.solveRanges
    rw [day2p2_foldl_eq ranges 0, Nat.zero_add],
   by decide, by decide, by decide⟩

/-- C9: every value in some range whose decimal representation is a digit
pattern written exactly twice (`v = s * 10 ^ k + s` with `s` of exactly
`k` digits) is produced by `invalid_from_seed` for exactly one seed, and
that seed lies strictly below
`10 ^ ((digitcount (maxEnd) + 1) / 2)` — so the sparse enumeration of
day2_part1 visits every in-range doubled-pattern value exactly once. -/
theorem c9_seed_enumeration_complete :
    ∀ (ranges : List (Nat × Nat)) (v s k : Nat),
      (∃ r ∈ ranges, r.1 ≤ v ∧ v ≤ r.2) →
      1 ≤ s → 10 ^ (k - 1) ≤ s → s < 10 ^ k → v = s * 10 ^ k + s →
      Day2P1.invalid_from_seed s = v ∧
      s < Day2P1.seed_limit_for_max_id (Day2P1.maxEnd ranges) ∧
      ∀ t, Day2P1.invalid_from_seed t = v → t = s := by
  intro ranges v s k hmem hs h1 h2 hv
  have hk : 1 ≤ k := by
    by_contra hk0
    have hz : k = 0 := by omega
    rw [hz] at h2
    simp at h2
    omega
  have hdc : Day2P1.digits_count s = k := dc_eq_of_bounds s k hk h1 h2
  have heq : Day2P1.invalid_from_seed s = v := by
    unfold Day2P1.invalid_from_seed
    rw [hdc, hv]
    ring
  refine ⟨heq, ?_, ?_⟩
  · obtain ⟨r, hr, hr1, hr2⟩ := hmem
    have hvM : v ≤ Day2P1.maxEnd ranges :=
      le_trans hr2 (mem_le_maxEnd ranges 0 r hr)
    have hdv : Day2P1.digits_count v = 2 * k := by
      rw [← heq, dc_invalid_from_seed s hs, hdc]
    have hmono := dc_mono v (Day2P1.maxEnd ranges) hvM
    unfold Day2P1.seed_limit_for_max_id
    have hge : k ≤ (Day2P1.digits_count (Day2P1.maxEnd ranges) + 1) / 2 := by omega
    exact lt_of_lt_of_le h2 (Nat.pow_le_pow_right (by omega) hge)
  · intro t ht
    have hv1 : 1 ≤ v := by
      have h3 : s ≤ v := by omega
      omega
    have ht1 : 1 ≤ t := by
      by_contra h0
      have hz : t = 0 := by omega
      rw [hz] at ht
      have h4 : Day2P1.invalid_from_seed 0 = 0 := rfl
      omega
    have hdt : Day2P1.digits_count v = 2 * Day2P1.digits_count t := by
      rw [← ht, dc_invalid_from_seed t ht1]
    have hds : Day2P1.digits_count v = 2 * Day2P1.digits_count s := by
      rw [← heq, dc_invalid_from_seed s hs]
    have hts : Day2P1.digits_count t = Day2P1.digits_count s := by omega
    rw [← heq] at ht
    unfold Day2P1.invalid_from_seed at ht
    rw [hts, hdc] at ht
    exact Nat.eq_of_mul_eq_mul_right (by positivity) ht

/-- Witness for C9: in the range set `[(11, 99)]`, the doubled-pattern
value 11 comes from the unique seed 1, which is below the seed limit. -/
theorem c9_seed_enumeration_complete_witness :
    Day2P1.invalid_from_seed 1 = 11 ∧
    1 < Day2P1.seed_limit_for_max_id (Day2P1.maxEnd [(11, 99)]) := by
  have h := c9_seed_enumeration_complete [(11, 99)] 11 1 1
    (by decide) (by decide) (by decide) (by decide) (by decide)
  exact ⟨h.1, h.2.1⟩

end Flux
